import Mathlib

/-!
Verification of the projection engine `newinvestment` from `src/app.py`
(investments simulator).  The engine is embedded shallowly over `ℚ`:
Python numbers become rationals, Python `int(x)` becomes truncation toward
zero (`pyint`), the mutable goal list becomes an explicit heap holding the
caller's list object and the engine's private working copy (created by
`goals = list(travelgoals)` in the source), and the `ValueError` raised on
an invalid withdrawal becomes `Except.error ()`.
-/

/-- Python `int(x)` on a rational: truncation toward zero. -/
def pyint (q : ℚ) : ℤ :=
  if 0 ≤ q then ⌊q⌋ else ⌈q⌉

/-- The two list objects live in the Python heap: `caller` is the list the
caller passed as `travelgoals`; `work` is the engine's private copy `goals`
created by `goals = list(travelgoals)` (src/app.py line 22).  All in-place
mutation (`goals.remove`) acts on `work` only. -/
structure Heap where
  caller : List ℚ
  work : List ℚ
  deriving DecidableEq, Repr

/-- The inner goal loop of `newinvestment` (src/app.py lines 29-37):
`for goal in list(goals)` iterates a snapshot of the working list; when the
post-growth balance strictly exceeds a goal, the engine first checks
`travelbudget > y0` (raising on failure), then subtracts the budget and
removes the goal from the working list by value (`goals.remove(goal)`).
Returns the evolved balance and the number of withdrawals this month,
together with the heap (returned on the error path too, since a Python
exception leaves prior mutations in place). -/
def processGoalsH (budget : ℚ) : List ℚ → ℚ → Heap → Except Unit (ℚ × ℕ) × Heap
  | [], y, h => (.ok (y, 0), h)
  | g :: rest, y, h =>
    if g < y then
      if y < budget then (.error (), h)
      else
        match processGoalsH budget rest (y - budget) ⟨h.caller, h.work.erase g⟩ with
        | (.ok (y2, k), h2) => (.ok (y2, k + 1), h2)
        | (.error e, h2) => (.error e, h2)
    else processGoalsH budget rest y h

/-- The month loop of `newinvestment` (src/app.py lines 25-39), with `x0`
the 0-based month counter and the remaining month count as fuel.  Each
month records `int(y0)` into `y_start`, updates
`y0 = int(y0 * (1 + t / 100) + a)`, runs the goal loop on the snapshot
`list(goals)` (= `h.work`), appends `x0 + 1` to `withdraw_months` once per
withdrawal, and records `int(y0)` into `y`. -/
def runAuxH (t a budget : ℚ) :
    ℚ → Heap → ℕ → ℕ → Except Unit (List ℤ × List ℤ × List ℕ) × Heap
  | _, h, _, 0 => (.ok ([], [], []), h)
  | y, h, x0, n + 1 =>
    let before := pyint y
    let y1 : ℚ := ((pyint (y * (1 + t / 100) + a) : ℤ) : ℚ)
    match processGoalsH budget h.work y1 h with
    | (.error e, h2) => (.error e, h2)
    | (.ok (y2, k), h2) =>
      match runAuxH t a budget y2 h2 (x0 + 1) n with
      | (.error e, h3) => (.error e, h3)
      | (.ok (ys, st, wm), h3) =>
        (.ok (pyint y2 :: ys, before :: st, List.replicate k (x0 + 1) ++ wm), h3)

/-- `newinvestment(t, a, travelgoals, travelbudget, limit, initial_balance)`
from src/app.py lines 8-41, with the final heap exposed: starts from
`y0 = int(initial_balance)` and a fresh working copy of the caller's goal
list, and runs `limit` months. -/
def newinvestmentH (t a : ℚ) (travelgoals : List ℚ) (travelbudget : ℚ)
    (limit : ℕ) (initial_balance : ℚ) :
    Except Unit (List ℤ × List ℤ × List ℕ) × Heap :=
  runAuxH t a travelbudget ((pyint initial_balance : ℤ) : ℚ)
    ⟨travelgoals, travelgoals⟩ 0 limit

/-- The engine's return value `(y, y_start, withdraw_months)`, i.e.
`(balance_after, balance_before, withdrawal_months)`, or the
`InvalidWithdrawal` error. -/
def newinvestment (t a : ℚ) (travelgoals : List ℚ) (travelbudget : ℚ)
    (limit : ℕ) (initial_balance : ℚ) :
    Except Unit (List ℤ × List ℤ × List ℕ) :=
  (newinvestmentH t a travelgoals travelbudget limit initial_balance).1

/-- Modelled from the spec (section 4.1 step 3 and section 9): one month's
goal pass, written as a direct recursion over the ordered snapshot of the
active goals.  Each goal is compared by strict inequality against the
evolving balance; a triggered goal is withdrawn from (error if the budget
strictly exceeds the balance at that instant) and is not kept in the
still-active list; a non-triggered goal is kept.  Returns the evolved
balance, the still-active goals in order, and the withdrawal count. -/
def specGoalPass (budget : ℚ) : ℚ → List ℚ → Except Unit (ℚ × List ℚ × ℕ)
  | y, [] => .ok (y, [], 0)
  | y, g :: rest =>
    if g < y then
      if y < budget then .error ()
      else
        match specGoalPass budget (y - budget) rest with
        | .ok (y2, still, k) => .ok (y2, still, k + 1)
        | .error e => .error e
    else
      match specGoalPass budget y rest with
      | .ok (y2, still, k) => .ok (y2, g :: still, k)
      | .error e => .error e

/-- Modelled from the spec, section 4.1 steps 1-5, with the month's
growth-and-contribution update amended to the single truncation
`trunc(balance * (1 + rate/100) + contribution)` that the code performs,
and with the untruncated post-withdrawal balance carried into the next
month (the truncated value being what is recorded).  `m` is the 1-based
month number, `n` the number of months left. -/
def simRun (t a budget : ℚ) : ℕ → ℕ → ℚ → List ℚ → Except Unit (List ℤ × List ℤ × List ℕ)
  | _, 0, _, _ => .ok ([], [], [])
  | m, n + 1, y, active =>
    let before := pyint y
    let y1 : ℚ := ((pyint (y * (1 + t / 100) + a) : ℤ) : ℚ)
    match specGoalPass budget y1 active with
    | .error e => .error e
    | .ok (y2, still, k) =>
      match simRun t a budget (m + 1) n y2 still with
      | .error e => .error e
      | .ok (ys, st, wm) =>
        .ok (pyint y2 :: ys, before :: st, List.replicate k m ++ wm)

/-- The spec's contract `simulate(...)` with the amended growth formula and
untruncated carry; see `simRun`. -/
def amendedSimulate (t a : ℚ) (goals : List ℚ) (budget : ℚ) (limit : ℕ)
    (initial : ℚ) : Except Unit (List ℤ × List ℤ × List ℕ) :=
  simRun t a budget 1 limit ((pyint initial : ℤ) : ℚ) goals

/-- Modelled from the spec: the projection engine exactly as the spec's
words describe it (section 4.1 step 2: `balance = floor(balance * (1 +
rate_percent/100)) + contribution`, then truncate to integer; section 3
invariant 1: the post-withdrawal balance is truncated before being used in
the next month's computation). -/
def specRun (t a budget : ℚ) : ℕ → ℕ → ℚ → List ℚ → Except Unit (List ℤ × List ℤ × List ℕ)
  | _, 0, _, _ => .ok ([], [], [])
  | m, n + 1, y, active =>
    let before := pyint y
    let y1 : ℚ := ((pyint (((⌊y * (1 + t / 100)⌋ : ℤ) : ℚ) + a) : ℤ) : ℚ)
    match specGoalPass budget y1 active with
    | .error e => .error e
    | .ok (y2, still, k) =>
      match specRun t a budget (m + 1) n ((pyint y2 : ℤ) : ℚ) still with
      | .error e => .error e
      | .ok (ys, st, wm) =>
        .ok (pyint y2 :: ys, before :: st, List.replicate k m ++ wm)

/-- Modelled from the spec: `simulate(...)` literally as written in
sections 3 and 4.1; used to exhibit where the code diverges from the
spec's wording. -/
def specSimulate (t a : ℚ) (goals : List ℚ) (budget : ℚ) (limit : ℕ)
    (initial : ℚ) : Except Unit (List ℤ × List ℤ × List ℕ) :=
  specRun t a budget 1 limit ((pyint initial : ℤ) : ℚ) goals

/-- Modelled from the spec: like `simRun` (amended growth formula) but with
the spec's section 3 discipline restored: the post-withdrawal balance is
truncated toward zero before it is carried into the next month. -/
def truncRun (t a budget : ℚ) : ℕ → ℕ → ℚ → List ℚ → Except Unit (List ℤ × List ℤ × List ℕ)
  | _, 0, _, _ => .ok ([], [], [])
  | m, n + 1, y, active =>
    let before := pyint y
    let y1 : ℚ := ((pyint (y * (1 + t / 100) + a) : ℤ) : ℚ)
    match specGoalPass budget y1 active with
    | .error e => .error e
    | .ok (y2, still, k) =>
      match truncRun t a budget (m + 1) n ((pyint y2 : ℤ) : ℚ) still with
      | .error e => .error e
      | .ok (ys, st, wm) =>
        .ok (pyint y2 :: ys, before :: st, List.replicate k m ++ wm)

/-- `simulate` with amended growth and truncated carry; see `truncRun`. -/
def truncSimulate (t a : ℚ) (goals : List ℚ) (budget : ℚ) (limit : ℕ)
    (initial : ℚ) : Except Unit (List ℤ × List ℤ × List ℕ) :=
  truncRun t a budget 1 limit ((pyint initial : ℤ) : ℚ) goals

/-! ### Basic facts about `pyint` -/

lemma pyint_intCast (z : ℤ) : pyint ((z : ℤ) : ℚ) = z := by
  unfold pyint
  split <;> simp

lemma pyint_nonneg (q : ℚ) (h : 0 ≤ q) : 0 ≤ pyint q := by
  unfold pyint
  rw [if_pos h]
  exact Int.le_floor.2 (by exact_mod_cast h)

/-! ### The engine never touches the caller's list object -/

lemma processGoalsH_caller (budget : ℚ) :
    ∀ (snap : List ℚ) (y : ℚ) (h : Heap),
      ((processGoalsH budget snap y h).2).caller = h.caller := by
  intro snap
  induction snap with
  | nil => intro y h; rfl
  | cons g rest ih =>
    intro y h
    rw [processGoalsH]
    by_cases hgy : g < y
    · rw [if_pos hgy]
      by_cases hyb : y < budget
      · rw [if_pos hyb]
      · rw [if_neg hyb]
        rcases hrec : processGoalsH budget rest (y - budget) ⟨h.caller, h.work.erase g⟩
          with ⟨r, h2⟩
        have := ih (y - budget) ⟨h.caller, h.work.erase g⟩
        rw [hrec] at this
        cases r <;> simp [hrec] <;> exact this
    · rw [if_neg hgy]
      exact ih y h

lemma runAuxH_caller (t a budget : ℚ) :
    ∀ (n : ℕ) (y : ℚ) (h : Heap) (x0 : ℕ),
      ((runAuxH t a budget y h x0 n).2).caller = h.caller := by
  intro n
  induction n with
  | zero => intro y h x0; rfl
  | succ n ih =>
    intro y h x0
    rw [runAuxH]
    rcases hpass : processGoalsH budget h.work
        ((pyint (y * (1 + t / 100) + a) : ℤ) : ℚ) h with ⟨r, h2⟩
    have hc2 : h2.caller = h.caller := by
      have := processGoalsH_caller budget h.work
        ((pyint (y * (1 + t / 100) + a) : ℤ) : ℚ) h
      rw [hpass] at this
      exact this
    cases r with
    | error e => simp [hpass, hc2]
    | ok v =>
      obtain ⟨y2, k⟩ := v
      rcases hrec : runAuxH t a budget y2 h2 (x0 + 1) n with ⟨r2, h3⟩
      have hc3 : h3.caller = h2.caller := by
        have := ih y2 h2 (x0 + 1)
        rw [hrec] at this
        exact this
      cases r2 <;> simp [hpass, hrec, hc3, hc2]

/-! ### One month's goal loop: iterating the snapshot while erasing from the
working list agrees with the direct keep-or-withdraw recursion, as long as
the budget is non-negative (the balance then only decreases inside the
pass, so an already-kept goal can never coincide with a goal that triggers
later in the same pass). -/

lemma processGoalsH_ok_eq (budget : ℚ) (hb : 0 ≤ budget) :
    ∀ (snap : List ℚ) (y : ℚ) (kept cg : List ℚ), (∀ g ∈ kept, y ≤ g) →
      ∀ y2 still k, specGoalPass budget y snap = .ok (y2, still, k) →
        processGoalsH budget snap y ⟨cg, kept ++ snap⟩ = (.ok (y2, k), ⟨cg, kept ++ still⟩) := by
  intro snap
  induction snap with
  | nil =>
    intro y kept cg hk y2 still k hspec
    rw [specGoalPass] at hspec
    obtain ⟨h1, h2, h3⟩ := by simpa using hspec
    subst h1; subst h2; subst h3
    simp [processGoalsH]
  | cons g rest ih =>
    intro y kept cg hk y2 still k hspec
    by_cases hgy : g < y
    · by_cases hyb : y < budget
      · rw [specGoalPass, if_pos hgy, if_pos hyb] at hspec
        exact absurd hspec (by simp)
      · rw [specGoalPass, if_pos hgy, if_neg hyb] at hspec
        rcases hin : specGoalPass budget (y - budget) rest with e | ⟨y3, s3, k3⟩
        · rw [hin] at hspec; exact absurd hspec (by simp)
        · rw [hin] at hspec
          obtain ⟨hy, hs, hkk⟩ := by simpa using hspec
          have hk2 : ∀ g2 ∈ kept, y - budget ≤ g2 := by
            intro g2 hg2
            have := hk g2 hg2
            linarith
          have hgnk : g ∉ kept := by
            intro hmem
            exact absurd hgy (not_lt.2 (hk g hmem))
          have herase : (kept ++ g :: rest).erase g = kept ++ rest := by
            rw [List.erase_append_right _ hgnk, List.erase_cons_head]
          have hrec := ih (y - budget) kept cg hk2 y3 s3 k3 hin
          rw [processGoalsH]
          rw [if_pos hgy, if_neg hyb]
          simp only [herase]
          rw [hrec]
          simp [hy, hs, hkk]
    · rw [specGoalPass, if_neg hgy] at hspec
      rcases hin : specGoalPass budget y rest with e | ⟨y3, s3, k3⟩
      · rw [hin] at hspec; exact absurd hspec (by simp)
      · rw [hin] at hspec
        obtain ⟨hy, hs, hkk⟩ := by simpa using hspec
        have hk2 : ∀ g2 ∈ kept ++ [g], y ≤ g2 := by
          intro g2 hg2
          rcases List.mem_append.1 hg2 with hmem | hmem
          · exact hk g2 hmem
          · have : g2 = g := by simpa using hmem
            subst this
            exact not_lt.1 hgy
        have hrec := ih y (kept ++ [g]) cg hk2 y3 s3 k3 hin
        have hassoc : kept ++ g :: rest = (kept ++ [g]) ++ rest := by simp
        rw [processGoalsH, if_neg hgy, hassoc, hrec]
        simp [hy, ← hs, hkk]

lemma processGoalsH_err (budget : ℚ) (hb : 0 ≤ budget) :
    ∀ (snap : List ℚ) (y : ℚ) (kept cg : List ℚ), (∀ g ∈ kept, y ≤ g) →
      specGoalPass budget y snap = .error () →
        (processGoalsH budget snap y ⟨cg, kept ++ snap⟩).1 = .error () := by
  intro snap
  induction snap with
  | nil =>
    intro y kept cg hk hspec
    rw [specGoalPass] at hspec
    exact absurd hspec (by simp)
  | cons g rest ih =>
    intro y kept cg hk hspec
    by_cases hgy : g < y
    · by_cases hyb : y < budget
      · rw [processGoalsH, if_pos hgy, if_pos hyb]
      · rw [specGoalPass, if_pos hgy, if_neg hyb] at hspec
        rcases hin : specGoalPass budget (y - budget) rest with e | ⟨y3, s3, k3⟩
        · cases e
          have hk2 : ∀ g2 ∈ kept, y - budget ≤ g2 := by
            intro g2 hg2
            have := hk g2 hg2
            linarith
          have hgnk : g ∉ kept := by
            intro hmem
            exact absurd hgy (not_lt.2 (hk g hmem))
          have herase : (kept ++ g :: rest).erase g = kept ++ rest := by
            rw [List.erase_append_right _ hgnk, List.erase_cons_head]
          have hrec := ih (y - budget) kept cg hk2 hin
          rw [processGoalsH, if_pos hgy, if_neg hyb]
          simp only [herase]
          rcases hpr : processGoalsH budget rest (y - budget) ⟨cg, kept ++ rest⟩ with ⟨r, h2⟩
          rw [hpr] at hrec
          cases r with
          | error e2 => simp
          | ok v => exact absurd hrec (by simp)
        · rw [hin] at hspec; exact absurd hspec (by simp)
    · rw [specGoalPass, if_neg hgy] at hspec
      rcases hin : specGoalPass budget y rest with e | ⟨y3, s3, k3⟩
      · cases e
        have hk2 : ∀ g2 ∈ kept ++ [g], y ≤ g2 := by
          intro g2 hg2
          rcases List.mem_append.1 hg2 with hmem | hmem
          · exact hk g2 hmem
          · have : g2 = g := by simpa using hmem
            subst this
            exact not_lt.1 hgy
        have hrec := ih y (kept ++ [g]) cg hk2 hin
        have hassoc : kept ++ g :: rest = (kept ++ [g]) ++ rest := by simp
        rw [processGoalsH, if_neg hgy, hassoc]
        exact hrec
      · rw [hin] at hspec; exact absurd hspec (by simp)

/-! ### The engine refines the spec-shaped simulator with the amended
growth formula (non-negative budget). -/

lemma runAuxH_fst_eq_simRun (t a budget : ℚ) (hb : 0 ≤ budget) :
    ∀ (n x0 : ℕ) (y : ℚ) (cg work : List ℚ),
      (runAuxH t a budget y ⟨cg, work⟩ x0 n).1 = simRun t a budget (x0 + 1) n y work := by
  intro n
  induction n with
  | zero => intro x0 y cg work; rfl
  | succ n ih =>
    intro x0 y cg work
    rw [runAuxH, simRun]
    rcases hsp : specGoalPass budget ((pyint (y * (1 + t / 100) + a) : ℤ) : ℚ) work
      with e | ⟨y2, still, k⟩
    · cases e
      have herr := processGoalsH_err budget hb work
        ((pyint (y * (1 + t / 100) + a) : ℤ) : ℚ) [] cg (by simp) hsp
      simp only [List.nil_append] at herr
      rcases hpc : processGoalsH budget work ((pyint (y * (1 + t / 100) + a) : ℤ) : ℚ)
        ⟨cg, work⟩ with ⟨r, h2⟩
      rw [hpc] at herr
      simp only at herr
      subst herr
      simp [hpc, hsp]
    · have hok := processGoalsH_ok_eq budget hb work
        ((pyint (y * (1 + t / 100) + a) : ℤ) : ℚ) [] cg (by simp) y2 still k hsp
      simp only [List.nil_append] at hok
      simp only [hok, hsp]
      rcases hrec : runAuxH t a budget y2 ⟨cg, still⟩ (x0 + 1) n with ⟨r2, h3⟩
      have hih := ih (x0 + 1) y2 cg still
      rw [hrec] at hih
      simp only at hih
      cases r2 with
      | error e2 => simp [hrec, ← hih]
      | ok v => simp [hrec, ← hih]

lemma newinvestment_eq_amendedSimulate (t a : ℚ) (gs : List ℚ) (bu : ℚ) (li : ℕ)
    (ib : ℚ) (hb : 0 ≤ bu) :
    newinvestment t a gs bu li ib = amendedSimulate t a gs bu li ib :=
  runAuxH_fst_eq_simRun t a bu hb li 0 ((pyint ib : ℤ) : ℚ) gs gs

/-! ### Counting and ordering facts -/

lemma specGoalPass_count (budget : ℚ) :
    ∀ (snap : List ℚ) (y y2 : ℚ) (still : List ℚ) (k : ℕ),
      specGoalPass budget y snap = .ok (y2, still, k) →
        k + still.length = snap.length ∧ still.Sublist snap := by
  intro snap
  induction snap with
  | nil =>
    intro y y2 still k hspec
    obtain ⟨h1, h2, h3⟩ := by simpa [specGoalPass] using hspec
    subst h2; subst h3
    simp
  | cons g rest ih =>
    intro y y2 still k hspec
    rw [specGoalPass] at hspec
    by_cases hgy : g < y
    · rw [if_pos hgy] at hspec
      by_cases hyb : y < budget
      · rw [if_pos hyb] at hspec; exact absurd hspec (by simp)
      · rw [if_neg hyb] at hspec
        rcases hin : specGoalPass budget (y - budget) rest with e | ⟨y3, s3, k3⟩
        · rw [hin] at hspec; exact absurd hspec (by simp)
        · rw [hin] at hspec
          obtain ⟨hy, hs, hkk⟩ := by simpa using hspec
          obtain ⟨hlen, hsub⟩ := ih (y - budget) y3 s3 k3 hin
          subst hs; subst hkk
          exact ⟨by simp [← hlen]; omega, hsub.cons g⟩
    · rw [if_neg hgy] at hspec
      rcases hin : specGoalPass budget y rest with e | ⟨y3, s3, k3⟩
      · rw [hin] at hspec; exact absurd hspec (by simp)
      · rw [hin] at hspec
        obtain ⟨hy, hs, hkk⟩ := by simpa using hspec
        obtain ⟨hlen, hsub⟩ := ih y y3 s3 k3 hin
        subst hkk
        rw [← hs]
        exact ⟨by simp [← hlen]; omega, hsub.cons₂ g⟩

lemma runAuxH_count (t a budget : ℚ) (hb : 0 ≤ budget) :
    ∀ (n x0 : ℕ) (y : ℚ) (cg work : List ℚ) (ys st : List ℤ) (wm : List ℕ) (h2 : Heap),
      runAuxH t a budget y ⟨cg, work⟩ x0 n = (.ok (ys, st, wm), h2) →
        wm.length + h2.work.length = work.length ∧ h2.work.Sublist work := by
  intro n
  induction n with
  | zero =>
    intro x0 y cg work ys st wm h2 hrun
    obtain ⟨ho, hh⟩ := Prod.mk.injEq .. ▸ hrun
    obtain ⟨h1, h2, h3⟩ := by simpa using ho
    subst h3
    rw [← hh]
    simp
  | succ n ih =>
    intro x0 y cg work ys st wm h2 hrun
    rw [runAuxH] at hrun
    rcases hsp : specGoalPass budget ((pyint (y * (1 + t / 100) + a) : ℤ) : ℚ) work
      with e | ⟨y2, still, k⟩
    · cases e
      have herr := processGoalsH_err budget hb work
        ((pyint (y * (1 + t / 100) + a) : ℤ) : ℚ) [] cg (by simp) hsp
      simp only [List.nil_append] at herr
      rcases hpc : processGoalsH budget work ((pyint (y * (1 + t / 100) + a) : ℤ) : ℚ)
        ⟨cg, work⟩ with ⟨r, hx⟩
      rw [hpc] at herr hrun
      simp only at herr
      subst herr
      exact absurd hrun (by simp)
    · have hok := processGoalsH_ok_eq budget hb work
        ((pyint (y * (1 + t / 100) + a) : ℤ) : ℚ) [] cg (by simp) y2 still k hsp
      simp only [List.nil_append] at hok
      rw [hok] at hrun
      simp only at hrun
      rcases hrec : runAuxH t a budget y2 ⟨cg, still⟩ (x0 + 1) n with ⟨r2, h3⟩
      rw [hrec] at hrun
      cases r2 with
      | error e2 => exact absurd hrun (by simp)
      | ok v =>
        obtain ⟨ys2, st2, wm2⟩ := v
        obtain ⟨ho, hh⟩ := Prod.mk.injEq .. ▸ hrun
        obtain ⟨hys, hst, hwm⟩ := by simpa using ho
        obtain ⟨hlen2, hsub2⟩ := ih (x0 + 1) y2 cg still ys2 st2 wm2 h3 hrec
        obtain ⟨hlen1, hsub1⟩ := specGoalPass_count budget work
          ((pyint (y * (1 + t / 100) + a) : ℤ) : ℚ) y2 still k hsp
        subst hh
        constructor
        · rw [← hwm]
          simp only [List.length_append, List.length_replicate]
          omega
        · exact hsub2.trans hsub1

lemma simRun_props (t a budget : ℚ) :
    ∀ (n m : ℕ) (y : ℚ) (active : List ℚ) (ys st : List ℤ) (wm : List ℕ),
      simRun t a budget m n y active = .ok (ys, st, wm) →
        wm.length ≤ active.length ∧ (∀ mo ∈ wm, m ≤ mo ∧ mo < m + n) ∧
          wm.Pairwise (· ≤ ·) := by
  intro n
  induction n with
  | zero =>
    intro m y active ys st wm hrun
    obtain ⟨h1, h2, h3⟩ := by simpa [simRun] using hrun
    subst h3
    simp
  | succ n ih =>
    intro m y active ys st wm hrun
    rw [simRun] at hrun
    rcases hsp : specGoalPass budget ((pyint (y * (1 + t / 100) + a) : ℤ) : ℚ) active
      with e | ⟨y2, still, k⟩
    · rw [hsp] at hrun; exact absurd hrun (by simp)
    · rw [hsp] at hrun
      simp only at hrun
      rcases hrec : simRun t a budget (m + 1) n y2 still with e2 | ⟨ys2, st2, wm2⟩
      · rw [hrec] at hrun; exact absurd hrun (by simp)
      · rw [hrec] at hrun
        obtain ⟨hys, hst, hwm⟩ := by simpa using hrun
        obtain ⟨hlen2, hbd2, hpw2⟩ := ih (m + 1) y2 still ys2 st2 wm2 hrec
        obtain ⟨hlen1, _⟩ := specGoalPass_count budget active
          ((pyint (y * (1 + t / 100) + a) : ℤ) : ℚ) y2 still k hsp
        refine ⟨?_, ?_, ?_⟩
        · rw [← hwm]
          simp only [List.length_append, List.length_replicate]
          omega
        · intro mo hmo
          rw [← hwm] at hmo
          rcases List.mem_append.1 hmo with hmem | hmem
          · have : mo = m := (List.mem_replicate.1 hmem).2
            subst this
            omega
          · have := hbd2 mo hmem
            omega
        · rw [← hwm]
          refine List.pairwise_append.2 ⟨List.pairwise_replicate.2 (Or.inr le_rfl), hpw2, ?_⟩
          intro b hbm c hc
          have hbm2 : b = m := (List.mem_replicate.1 hbm).2
          have := (hbd2 c hc).1
          omega

lemma runAuxH_len (t a budget : ℚ) :
    ∀ (n : ℕ) (y : ℚ) (h : Heap) (x0 : ℕ) (ys st : List ℤ) (wm : List ℕ) (h2 : Heap),
      runAuxH t a budget y h x0 n = (.ok (ys, st, wm), h2) →
        ys.length = n ∧ st.length = n := by
  intro n
  induction n with
  | zero =>
    intro y h x0 ys st wm h2 hrun
    obtain ⟨ho, hh⟩ := Prod.mk.injEq .. ▸ hrun
    obtain ⟨h1, h3, h4⟩ := by simpa using ho
    subst h1; subst h3
    simp
  | succ n ih =>
    intro y h x0 ys st wm h2 hrun
    rw [runAuxH] at hrun
    rcases hpc : processGoalsH budget h.work ((pyint (y * (1 + t / 100) + a) : ℤ) : ℚ) h
      with ⟨r, hx⟩
    rw [hpc] at hrun
    cases r with
    | error e => exact absurd hrun (by simp)
    | ok v =>
      obtain ⟨y2, k⟩ := v
      simp only at hrun
      rcases hrec : runAuxH t a budget y2 hx (x0 + 1) n with ⟨r2, h3⟩
      rw [hrec] at hrun
      cases r2 with
      | error e2 => exact absurd hrun (by simp)
      | ok v2 =>
        obtain ⟨ys2, st2, wm2⟩ := v2
        obtain ⟨ho, hh⟩ := Prod.mk.injEq .. ▸ hrun
        obtain ⟨hys, hst, hwm⟩ := by simpa using ho
        obtain ⟨hl1, hl2⟩ := ih y2 hx (x0 + 1) ys2 st2 wm2 h3 hrec
        rw [← hys, ← hst]
        simp [hl1, hl2]

/-! ### Non-negativity -/

lemma processGoalsH_nonneg (budget : ℚ) (_hb : 0 ≤ budget) :
    ∀ (snap : List ℚ) (y : ℚ) (h : Heap) (y2 : ℚ) (k : ℕ) (h2 : Heap), 0 ≤ y →
      processGoalsH budget snap y h = (.ok (y2, k), h2) → 0 ≤ y2 := by
  intro snap
  induction snap with
  | nil =>
    intro y h y2 k h2 hy hrun
    obtain ⟨ho, hh⟩ := Prod.mk.injEq .. ▸ hrun
    obtain ⟨h1, h3⟩ := by simpa using ho
    rw [← h1]
    exact hy
  | cons g rest ih =>
    intro y h y2 k h2 hy hrun
    rw [processGoalsH] at hrun
    by_cases hgy : g < y
    · rw [if_pos hgy] at hrun
      by_cases hyb : y < budget
      · rw [if_pos hyb] at hrun
        exact absurd hrun (by simp)
      · rw [if_neg hyb] at hrun
        have hy2 : 0 ≤ y - budget := by
          have := not_lt.1 hyb
          linarith
        rcases hpr : processGoalsH budget rest (y - budget) ⟨h.caller, h.work.erase g⟩
          with ⟨r, hx⟩
        rw [hpr] at hrun
        cases r with
        | error e => exact absurd hrun (by simp)
        | ok v =>
          obtain ⟨y3, k3⟩ := v
          obtain ⟨ho, hh⟩ := Prod.mk.injEq .. ▸ hrun
          obtain ⟨h1, h3⟩ := by simpa using ho
          rw [← h1]
          exact ih (y - budget) ⟨h.caller, h.work.erase g⟩ y3 k3 hx hy2 hpr
    · rw [if_neg hgy] at hrun
      exact ih y h y2 k h2 hy hrun

lemma runAuxH_nonneg (t a budget : ℚ) (ht : -100 ≤ t) (ha : 0 ≤ a) (hb : 0 ≤ budget) :
    ∀ (n : ℕ) (y : ℚ) (h : Heap) (x0 : ℕ) (ys st : List ℤ) (wm : List ℕ) (h2 : Heap),
      0 ≤ y → runAuxH t a budget y h x0 n = (.ok (ys, st, wm), h2) →
        (∀ v ∈ ys, 0 ≤ v) ∧ (∀ v ∈ st, 0 ≤ v) := by
  intro n
  induction n with
  | zero =>
    intro y h x0 ys st wm h2 hy hrun
    obtain ⟨ho, hh⟩ := Prod.mk.injEq .. ▸ hrun
    obtain ⟨h1, h3, h4⟩ := by simpa using ho
    subst h1; subst h3
    simp
  | succ n ih =>
    intro y h x0 ys st wm h2 hy hrun
    have hrate : (0 : ℚ) ≤ 1 + t / 100 := by linarith
    have hy1 : (0 : ℚ) ≤ y * (1 + t / 100) + a := add_nonneg (mul_nonneg hy hrate) ha
    have hy1c : (0 : ℚ) ≤ ((pyint (y * (1 + t / 100) + a) : ℤ) : ℚ) := by
      exact_mod_cast pyint_nonneg _ hy1
    rw [runAuxH] at hrun
    rcases hpc : processGoalsH budget h.work ((pyint (y * (1 + t / 100) + a) : ℤ) : ℚ) h
      with ⟨r, hx⟩
    rw [hpc] at hrun
    cases r with
    | error e => exact absurd hrun (by simp)
    | ok v =>
      obtain ⟨y2, k⟩ := v
      have hy2 : 0 ≤ y2 := processGoalsH_nonneg budget hb h.work _ h y2 k hx hy1c hpc
      simp only at hrun
      rcases hrec : runAuxH t a budget y2 hx (x0 + 1) n with ⟨r2, h3⟩
      rw [hrec] at hrun
      cases r2 with
      | error e2 => exact absurd hrun (by simp)
      | ok v2 =>
        obtain ⟨ys2, st2, wm2⟩ := v2
        obtain ⟨ho, hh⟩ := Prod.mk.injEq .. ▸ hrun
        obtain ⟨hys, hst, hwm⟩ := by simpa using ho
        obtain ⟨hn1, hn2⟩ := ih y2 hx (x0 + 1) ys2 st2 wm2 h3 hy2 hrec
        constructor
        · intro v hv
          rw [← hys] at hv
          rcases List.mem_cons.1 hv with hvm | hvm
          · subst hvm
            exact pyint_nonneg y2 hy2
          · exact hn1 v hvm
        · intro v hv
          rw [← hst] at hv
          rcases List.mem_cons.1 hv with hvm | hvm
          · subst hvm
            exact pyint_nonneg y hy
          · exact hn2 v hvm

/-! ### Integer withdrawal budgets keep the carried balance an integer -/

lemma specGoalPass_int (z : ℤ) :
    ∀ (snap : List ℚ) (w : ℤ) (y2 : ℚ) (still : List ℚ) (k : ℕ),
      specGoalPass ((z : ℤ) : ℚ) ((w : ℤ) : ℚ) snap = .ok (y2, still, k) →
        ∃ w2 : ℤ, y2 = ((w2 : ℤ) : ℚ) := by
  intro snap
  induction snap with
  | nil =>
    intro w y2 still k hspec
    obtain ⟨h1, h2, h3⟩ := by simpa [specGoalPass] using hspec
    exact ⟨w, h1.symm⟩
  | cons g rest ih =>
    intro w y2 still k hspec
    rw [specGoalPass] at hspec
    by_cases hgy : g < ((w : ℤ) : ℚ)
    · rw [if_pos hgy] at hspec
      by_cases hyb : ((w : ℤ) : ℚ) < ((z : ℤ) : ℚ)
      · rw [if_pos hyb] at hspec; exact absurd hspec (by simp)
      · rw [if_neg hyb] at hspec
        have hcast : ((w : ℤ) : ℚ) - ((z : ℤ) : ℚ) = (((w - z : ℤ) : ℤ) : ℚ) := by push_cast; ring
        rw [hcast] at hspec
        rcases hin : specGoalPass ((z : ℤ) : ℚ) (((w - z : ℤ) : ℤ) : ℚ) rest
          with e | ⟨y3, s3, k3⟩
        · rw [hin] at hspec; exact absurd hspec (by simp)
        · rw [hin] at hspec
          obtain ⟨hy, hs, hkk⟩ := by simpa using hspec
          obtain ⟨w2, hw2⟩ := ih (w - z) y3 s3 k3 hin
          exact ⟨w2, by rw [← hy, hw2]⟩
    · rw [if_neg hgy] at hspec
      rcases hin : specGoalPass ((z : ℤ) : ℚ) ((w : ℤ) : ℚ) rest with e | ⟨y3, s3, k3⟩
      · rw [hin] at hspec; exact absurd hspec (by simp)
      · rw [hin] at hspec
        obtain ⟨hy, hs, hkk⟩ := by simpa using hspec
        obtain ⟨w2, hw2⟩ := ih w y3 s3 k3 hin
        exact ⟨w2, by rw [← hy, hw2]⟩

lemma simRun_eq_truncRun (t a : ℚ) (z : ℤ) :
    ∀ (n m : ℕ) (w : ℤ) (active : List ℚ),
      simRun t a ((z : ℤ) : ℚ) m n ((w : ℤ) : ℚ) active =
        truncRun t a ((z : ℤ) : ℚ) m n ((w : ℤ) : ℚ) active := by
  intro n
  induction n with
  | zero => intro m w active; rfl
  | succ n ih =>
    intro m w active
    rw [simRun, truncRun]
    rcases hsp : specGoalPass ((z : ℤ) : ℚ)
        ((pyint (((w : ℤ) : ℚ) * (1 + t / 100) + a) : ℤ) : ℚ) active
      with e | ⟨y2, still, k⟩
    · simp [hsp]
    · obtain ⟨w2, hw2⟩ := specGoalPass_int z active
        (pyint (((w : ℤ) : ℚ) * (1 + t / 100) + a)) y2 still k hsp
      simp only [hsp]
      subst hw2
      rw [pyint_intCast]
      rw [ih (m + 1) w2 still]

/-! ## Claims -/

/-- Claim C1, counterexample: with rate 50 percent, a non-integer monthly
contribution of 3/5, no goals, a 1-month horizon and an initial balance
of 1, the engine computes the post-growth balance as
`trunc(1 * 1.5 + 0.6) = 2`, whereas the claimed formula
`floor(1 * 1.5) + 0.6`, truncated, gives 1: the claim fails on the code
for non-integer contribution amounts. -/
theorem claim_C1_cex :
    newinvestment 50 (3 / 5) [] 0 1 1 = .ok ([2], [1], []) ∧
    specSimulate 50 (3 / 5) [] 0 1 1 = .ok ([1], [1], []) ∧
    newinvestment 50 (3 / 5) [] 0 1 1 ≠ specSimulate 50 (3 / 5) [] 0 1 1 := by
  have h1 : newinvestment 50 (3 / 5) [] 0 1 1 = .ok ([2], [1], []) := by
    norm_num [newinvestment, newinvestmentH, runAuxH, processGoalsH, pyint]
  have h2 : specSimulate 50 (3 / 5) [] 0 1 1 = .ok ([1], [1], []) := by
    norm_num [specSimulate, specRun, specGoalPass, pyint]
  exact ⟨h1, h2, by rw [h1, h2]; simp⟩

/-- Claim C1 (amended): for every month the engine computes the post-growth
balance from the carried balance `b` as the single truncation
`trunc(b * (1 + rate_percent / 100) + contribution)` (not truncating the
growth term separately before adding the contribution), before any
withdrawal checks for that month; formally, for every non-negative
withdrawal budget the engine coincides with the spec-shaped simulator
`amendedSimulate`, whose month step is exactly record / amended growth /
goal pass / record. -/
theorem claim_C1 (t a bu ib : ℚ) (gs : List ℚ) (li : ℕ) (hb : 0 ≤ bu) :
    newinvestment t a gs bu li ib = amendedSimulate t a gs bu li ib :=
  newinvestment_eq_amendedSimulate t a gs bu li ib hb

/-- Witness for C1 at a concrete input. -/
theorem claim_C1_witness :
    (0 : ℚ) ≤ 50 ∧
      newinvestment 0 (3 / 2) [] 50 2 10 = amendedSimulate 0 (3 / 2) [] 50 2 10 :=
  ⟨by norm_num, claim_C1 0 (3 / 2) 50 10 [] 2 (by norm_num)⟩

/-- Claim C2: the engine has a single error kind (the `ValueError` of the
source, `Except.error ()` here, so no other error kind exists by
construction); for any validator-conforming (non-negative) budget it
errors exactly when the spec-shaped simulator does, i.e. exactly when, at
the instant a goal-triggered withdrawal is about to be applied, the fixed
budget strictly exceeds the balance at that instant; on error no result is
produced (the `Except` carries no partial output).  The two concrete
conjuncts check the spec's scenario 3 (strict excess fails) and that a
withdrawal exactly equal to the balance succeeds and leaves balance 0. -/
theorem claim_C2 :
    (∀ (t a bu ib : ℚ) (gs : List ℚ) (li : ℕ), 0 ≤ bu →
      (newinvestment t a gs bu li ib = .error () ↔
        amendedSimulate t a gs bu li ib = .error ())) ∧
    newinvestment 0 0 [50] 1000 1 60 = .error () ∧
    newinvestment 0 0 [50] 60 1 60 = .ok ([0], [60], [1]) := by
  refine ⟨fun t a bu ib gs li hb => ?_, ?_, ?_⟩
  · rw [newinvestment_eq_amendedSimulate t a gs bu li ib hb]
  · norm_num [newinvestment, newinvestmentH, runAuxH, processGoalsH, pyint]
  · norm_num [newinvestment, newinvestmentH, runAuxH, processGoalsH, pyint]

/-- Witness for C2 at a concrete input. -/
theorem claim_C2_witness :
    newinvestment 1 2 [5] 3 4 6 = .error () ↔
      amendedSimulate 1 2 [5] 3 4 6 = .error () :=
  claim_C2.1 1 2 3 6 [5] 4 (by norm_num)

/-- Claim C3: the spec's concrete scenario 2 — rate 0, contribution 100,
goals [250], withdrawal 50, horizon 3, initial balance 0 — returns exactly
`balance_after = [100, 200, 250]`, `balance_before = [0, 100, 200]` and
`withdrawal_months = [3]`. -/
theorem claim_C3 :
    newinvestment 0 100 [250] 50 3 0 = .ok ([100, 200, 250], [0, 100, 200], [3]) := by
  norm_num [newinvestment, newinvestmentH, runAuxH, processGoalsH, pyint]

/-- Claim C4: within a single month the active goals are checked in the
order they appear in the working collection, each by strict inequality
against the evolving balance — the snapshot-and-erase loop of the code
(`processGoalsH`) agrees with the direct in-order fold `specGoalPass`, in
which a goal triggers exactly when the balance left after the earlier
withdrawals of the same month strictly exceeds it, and a goal whose
threshold equals or exceeds that balance is kept untriggered. -/
theorem claim_C4 (budget y : ℚ) (cg snap : List ℚ) (hb : 0 ≤ budget) :
    (∀ (y2 : ℚ) (still : List ℚ) (k : ℕ),
      specGoalPass budget y snap = .ok (y2, still, k) →
        processGoalsH budget snap y ⟨cg, snap⟩ = (.ok (y2, k), ⟨cg, still⟩)) ∧
    (specGoalPass budget y snap = .error () →
        (processGoalsH budget snap y ⟨cg, snap⟩).1 = .error ()) := by
  constructor
  · intro y2 still k h
    have := processGoalsH_ok_eq budget hb snap y [] cg (by simp) y2 still k h
    simpa using this
  · intro h
    have := processGoalsH_err budget hb snap y [] cg (by simp) h
    simpa using this

/-- Witness for C4: balance 100, budget 10, goals [50, 90, 200]: the first
goal triggers (100 > 50), the second does not (90 > 90 fails), the third
does not. -/
theorem claim_C4_witness :
    processGoalsH 10 [50, 90, 200] 100 ⟨[7], [50, 90, 200]⟩ =
      (.ok (90, 1), ⟨[7], [90, 200]⟩) :=
  (claim_C4 10 100 [7] [50, 90, 200] (by norm_num)).1 90 [90, 200] 1
    (by norm_num [specGoalPass])

/-- Claim C5, counterexample: with rate 100 percent, contribution 0, goals
[100], the non-integer withdrawal amount 1/2, horizon 2 and initial
balance 60, month 1 ends with the untruncated balance 119.5 (recorded
as 119); the code carries 119.5 into month 2 and gets
`trunc(119.5 * 2) = 239`, while the claimed truncate-before-use discipline
(`truncSimulate`, identical except for that truncation) carries 119 and
gets 238. -/
theorem claim_C5_cex :
    newinvestment 100 0 [100] (1 / 2) 2 60 = .ok ([119, 239], [60, 119], [1]) ∧
    truncSimulate 100 0 [100] (1 / 2) 2 60 = .ok ([119, 238], [60, 119], [1]) ∧
    newinvestment 100 0 [100] (1 / 2) 2 60 ≠ truncSimulate 100 0 [100] (1 / 2) 2 60 := by
  have h1 : newinvestment 100 0 [100] (1 / 2) 2 60 = .ok ([119, 239], [60, 119], [1]) := by
    norm_num [newinvestment, newinvestmentH, runAuxH, processGoalsH, pyint]
  have h2 : truncSimulate 100 0 [100] (1 / 2) 2 60 = .ok ([119, 238], [60, 119], [1]) := by
    norm_num [truncSimulate, truncRun, specGoalPass, pyint]
  exact ⟨h1, h2, by rw [h1, h2]; simp⟩

/-- Claim C5 (amended): the post-withdrawal balance is truncated toward
zero when recorded (as that month's `balance_after` and the next month's
`balance_before`), but the untruncated value is carried into the next
month's growth computation; when the withdrawal amount is an integer —
the only case the reference UI produces — the carried value is itself an
integer and the truncate-before-use discipline holds as stated: the
engine then coincides with the simulator `truncSimulate` that truncates
the post-withdrawal balance before the next month. -/
theorem claim_C5 (t a ib : ℚ) (gs : List ℚ) (li : ℕ) (z : ℤ) (hz : 0 ≤ z) :
    newinvestment t a gs ((z : ℤ) : ℚ) li ib =
      truncSimulate t a gs ((z : ℤ) : ℚ) li ib := by
  have hb : (0 : ℚ) ≤ ((z : ℤ) : ℚ) := by exact_mod_cast hz
  rw [newinvestment_eq_amendedSimulate t a gs _ li ib hb]
  exact simRun_eq_truncRun t a z li 1 (pyint ib) gs

/-- Witness for C5 at a concrete input with integer budget 7. -/
theorem claim_C5_witness :
    newinvestment 0 10 [15] ((7 : ℤ) : ℚ) 2 0 =
      truncSimulate 0 10 [15] ((7 : ℤ) : ℚ) 2 0 :=
  claim_C5 0 10 0 [15] 2 7 (by norm_num)

/-- Claim C6: the caller's goal collection is unchanged — in contents and
order — after every call, returning or raising: the engine only ever
erases from its private working copy (`goals = list(travelgoals)` in the
source), so the caller's list object in the final heap is exactly the
input list. -/
theorem claim_C6 (t a bu ib : ℚ) (gs : List ℚ) (li : ℕ) :
    ((newinvestmentH t a gs bu li ib).2).caller = gs :=
  runAuxH_caller t a bu li ((pyint ib : ℤ) : ℚ) ⟨gs, gs⟩ 0

/-- Claim C7: each goal entry triggers at most one withdrawal over the
whole simulation: on a run that returns, the number of withdrawal events
plus the number of surviving working-copy entries equals the number of
goal entries supplied (each event permanently consumes exactly one entry),
and the surviving entries are a sublist of the original collection, so the
events attributable to any single entry number 0 or 1. -/
theorem claim_C7 (t a bu ib : ℚ) (gs : List ℚ) (li : ℕ) (hb : 0 ≤ bu)
    (ys st : List ℤ) (wm : List ℕ) (hp : Heap)
    (hrun : newinvestmentH t a gs bu li ib = (.ok (ys, st, wm), hp)) :
    wm.length + hp.work.length = gs.length ∧ hp.work.Sublist gs :=
  runAuxH_count t a bu hb li 0 ((pyint ib : ℤ) : ℚ) gs gs ys st wm hp hrun

/-- Witness for C7: both goals trigger in month 1, the working copy
empties, and 2 + 0 = 2 entries are accounted for. -/
theorem claim_C7_witness :
    newinvestmentH 0 0 [10, 20] 5 1 100 =
      (.ok ([90], [100], [1, 1]), Heap.mk [10, 20] []) ∧
    (([1, 1] : List ℕ).length + (Heap.mk [10, 20] []).work.length =
        ([10, 20] : List ℚ).length ∧
      (Heap.mk [10, 20] []).work.Sublist ([10, 20] : List ℚ)) := by
  have h : newinvestmentH 0 0 [10, 20] 5 1 100 =
      (.ok ([90], [100], [1, 1]), Heap.mk [10, 20] []) := by
    norm_num [newinvestmentH, runAuxH, processGoalsH, pyint, List.replicate]
  exact ⟨h, claim_C7 0 0 5 100 [10, 20] 1 (by norm_num) [90] [100] [1, 1] _ h⟩

/-- Claim C8: on every run that returns, `withdrawal_months` has at most
`len(goals)` entries, every entry lies in `[1, horizon_months]`, and the
sequence is non-decreasing. -/
theorem claim_C8 (t a bu ib : ℚ) (gs : List ℚ) (li : ℕ) (hb : 0 ≤ bu)
    (ys st : List ℤ) (wm : List ℕ)
    (hrun : newinvestment t a gs bu li ib = .ok (ys, st, wm)) :
    wm.length ≤ gs.length ∧ (∀ mo ∈ wm, 1 ≤ mo ∧ mo ≤ li) ∧
      wm.Pairwise (· ≤ ·) := by
  rw [newinvestment_eq_amendedSimulate t a gs bu li ib hb] at hrun
  obtain ⟨h1, h2, h3⟩ := simRun_props t a bu li 1 ((pyint ib : ℤ) : ℚ) gs ys st wm hrun
  refine ⟨h1, fun mo hmo => ?_, h3⟩
  obtain ⟨hl, hr⟩ := h2 mo hmo
  exact ⟨hl, by omega⟩

/-- Witness for C8: two goals trigger in month 1 of a 2-month run. -/
theorem claim_C8_witness :
    newinvestment 0 0 [30, 60] 10 2 100 = .ok ([80, 80], [100, 80], [1, 1]) ∧
    (([1, 1] : List ℕ).length ≤ ([30, 60] : List ℚ).length ∧
      (∀ mo ∈ ([1, 1] : List ℕ), 1 ≤ mo ∧ mo ≤ 2) ∧
      ([1, 1] : List ℕ).Pairwise (· ≤ ·)) := by
  have h : newinvestment 0 0 [30, 60] 10 2 100 = .ok ([80, 80], [100, 80], [1, 1]) := by
    norm_num [newinvestment, newinvestmentH, runAuxH, processGoalsH, pyint, List.replicate]
  exact ⟨h, claim_C8 0 0 10 100 [30, 60] 2 (by norm_num) [80, 80] [100, 80] [1, 1] h⟩

/-- Claim C9: on every run that returns, `balance_after` and
`balance_before` both have length exactly `horizon_months`. -/
theorem claim_C9 (t a bu ib : ℚ) (gs : List ℚ) (li : ℕ)
    (ys st : List ℤ) (wm : List ℕ)
    (hrun : newinvestment t a gs bu li ib = .ok (ys, st, wm)) :
    ys.length = li ∧ st.length = li := by
  rcases hp : newinvestmentH t a gs bu li ib with ⟨r, h2⟩
  rw [newinvestment, hp] at hrun
  subst hrun
  exact runAuxH_len t a bu li ((pyint ib : ℤ) : ℚ) ⟨gs, gs⟩ 0 ys st wm h2 hp

/-- Witness for C9 at a concrete input. -/
theorem claim_C9_witness :
    newinvestment 0 0 [] 0 1 5 = .ok ([5], [5], []) ∧
    (([5] : List ℤ).length = 1 ∧ ([5] : List ℤ).length = 1) := by
  have h : newinvestment 0 0 [] 0 1 5 = .ok ([5], [5], []) := by
    norm_num [newinvestment, newinvestmentH, runAuxH, processGoalsH, pyint]
  exact ⟨h, claim_C9 0 0 0 5 [] 1 [5] [5] [] h⟩

/-- Claim C10: with non-negative initial balance, contribution and
withdrawal amount and a rate of at least -100 percent, every entry of
`balance_after` and `balance_before` on a run that returns is non-negative
(entries are integers by construction, of type `ℤ`): growth keeps the
balance non-negative, and the withdrawal guard only lets a withdrawal
through when the budget does not exceed the balance. -/
theorem claim_C10 (t a bu ib : ℚ) (gs : List ℚ) (li : ℕ)
    (ht : -100 ≤ t) (ha : 0 ≤ a) (hb : 0 ≤ bu) (hi : 0 ≤ ib)
    (ys st : List ℤ) (wm : List ℕ)
    (hrun : newinvestment t a gs bu li ib = .ok (ys, st, wm)) :
    (∀ v ∈ ys, 0 ≤ v) ∧ (∀ v ∈ st, 0 ≤ v) := by
  rcases hp : newinvestmentH t a gs bu li ib with ⟨r, h2⟩
  rw [newinvestment, hp] at hrun
  subst hrun
  have hy0 : (0 : ℚ) ≤ ((pyint ib : ℤ) : ℚ) := by exact_mod_cast pyint_nonneg ib hi
  exact runAuxH_nonneg t a bu ht ha hb li ((pyint ib : ℤ) : ℚ) ⟨gs, gs⟩ 0 ys st wm h2 hy0 hp

/-- Witness for C10 at a concrete input. -/
theorem claim_C10_witness :
    newinvestment 0 1 [] 0 1 0 = .ok ([1], [0], []) ∧
    ((∀ v ∈ ([1] : List ℤ), 0 ≤ v) ∧ (∀ v ∈ ([0] : List ℤ), 0 ≤ v)) := by
  have h : newinvestment 0 1 [] 0 1 0 = .ok ([1], [0], []) := by
    norm_num [newinvestment, newinvestmentH, runAuxH, processGoalsH, pyint]
  exact ⟨h, claim_C10 0 1 0 0 [] 1 (by norm_num) (by norm_num) (by norm_num)
    (by norm_num) [1] [0] [] h⟩
